import Mathlib

/-!
Verification development for the y-py binding layer of the yrs CRDT engine
(src/y-py/src/lib.rs).  The definitions below are a shallow embedding of the
code: pure Rust functions become Lean functions, mutable cells become explicit
state values, panics and Python exceptions become `Except` errors.  Parts of
the yrs core that are not present under src/ (the block store, the v1 decoder,
`Doc::transact`) are modelled from the specification; each such definition is
marked with a doc comment starting with `Modelled from the spec:`.
-/

set_option maxRecDepth 10000

namespace YPy

/-- The lib0 `Any` value union (JSON-like primitives crossing the replication
boundary).  IEEE-754 doubles are carried as their raw bit pattern (`Nat`),
since no claim performs float arithmetic on them. -/
inductive Any where
  | null
  | bool (b : Bool)
  | number (bits : Nat)
  | bigInt (i : Int)
  | string (s : String)
  | buffer (bs : List Nat)
  | array (xs : List Any)
  | map (m : List (String × Any))
deriving Repr

/-- Python-side values as seen by the binding.  Shared handles
(`YText`/`YArray` pyclass instances) carry their preliminary payload when
preliminary; integrated handles are opaque (the claims only need the state
flag).  Text buffers are UTF-8 byte lists, matching the byte-offset semantics
of the source. -/
inductive PyValue where
  | pyNone
  | pyString (s : String)
  | pyLong (n : Int)
  | pyFloat (bits : Nat)
  | pyBool (b : Bool)
  | pyList (xs : List PyValue)
  | pyDict (entries : List (String × PyValue))
  | sharedTextPrelim (buf : List Nat)
  | sharedTextIntegrated
  | sharedArrayPrelim (items : List PyValue)
  | sharedArrayIntegrated
deriving Repr

/-- Logical values stored in an integrated array backing store: either an
inlined `Any` primitive or a nested integrated shared type (whose backing
content is carried inline for the purpose of the model). -/
inductive Value where
  | any (a : Any)
  | yText (content : List Nat)
  | yArray (content : List Value)
deriving Repr

/-- Round a natural number to 53 significant bits using round-half-to-even:
the value of the IEEE-754 double nearest to `n` (for `n` below the overflow
threshold).  Numbers up to `2 ^ 53` are exactly representable. -/
def roundTo53 (n : Nat) : Nat :=
  if n ≤ 2 ^ 53 then n
  else
    let e := Nat.log2 n
    let s := e - 52
    let q := n / 2 ^ s
    let r := n % 2 ^ s
    let half := 2 ^ s / 2
    let q1 := if half < r || (r == half && q % 2 == 1) then q + 1 else q
    q1 * 2 ^ s

/-- Conversion of a Python integer to an `f64`, as performed by
`l.extract::<f64>().unwrap()` in `py_into_any`: round to the nearest double.
CPython raises `OverflowError` (and the `unwrap` aborts) when the rounded
magnitude reaches `2 ^ 1024`; that abort is modelled as `none`. -/
def pyLongAsF64 (n : Int) : Option Int :=
  let m := roundTo53 n.natAbs
  if m < 2 ^ 1024 then some (if 0 ≤ n then (m : Int) else -(m : Int)) else none

/-- The Rust `as i64` cast of an integral double: saturating at the `i64`
range boundaries. -/
def i64Sat (x : Int) : Int :=
  max (-(2 ^ 63)) (min (2 ^ 63 - 1) x)

/-- The `PyLong` branch of `py_into_any` (src/y-py/src/lib.rs:1529): extract
the integer as an `f64`, then store `i as i64` in an `Any::BigInt`. -/
def pyLongToAny (n : Int) : Option Any :=
  match pyLongAsF64 n with
  | some x => some (.bigInt (i64Sat x))
  | none => none

mutual

/-- Embedding of `py_into_any` (src/y-py/src/lib.rs:1523): classifies a Python
value as a JSON-convertible primitive, producing its `Any` form, or returns
`none` for shared handles and unrecognized kinds.  The `downcast` chain is
tried in source order; note that a Python `bool` passes the `PyLong` downcast
(bool is a subtype of int in Python), so it is converted as an integer. -/
def pyIntoAny : PyValue → Option Any
  | .pyString s => some (.string s)
  | .pyLong n => pyLongToAny n
  | .pyBool b => pyLongToAny (if b then 1 else 0)
  | .pyFloat bits => some (.number bits)
  | .pyList xs =>
    match pyIntoAnyList xs with
    | some r => some (.array r)
    | none => none
  | .pyDict es =>
    match pyIntoAnyDict es with
    | some r => some (.map r)
    | none => none
  | _ => none

/-- Elementwise conversion of a Python list (the `for value in list.iter()`
loop of `py_into_any`); any inconvertible element makes the whole list
inconvertible (the `?` operator in the source). -/
def pyIntoAnyList : List PyValue → Option (List Any)
  | [] => some []
  | x :: xs =>
    match pyIntoAny x with
    | some a =>
      match pyIntoAnyList xs with
      | some r => some (a :: r)
      | none => none
    | none => none

/-- Entrywise conversion of a Python dict (the `for (k, v) in dict.iter()`
loop of `py_into_any`). -/
def pyIntoAnyDict : List (String × PyValue) → Option (List (String × Any))
  | [] => some []
  | (k, v) :: es =>
    match pyIntoAny v with
    | some a =>
      match pyIntoAnyDict es with
      | some r => some ((k, a) :: r)
      | none => none
    | none => none

end

/-- The inner `while` loop of `insert_at` (src/y-py/src/lib.rs:1501): starting
from the current scan position, accumulate converted `Any` values into `anys`
while `py_into_any` succeeds, stopping at the first non-primitive; returns the
accumulated batch together with the unconsumed remainder of the input. -/
def takeAnys : List PyValue → List Any × List PyValue
  | [] => ([], [])
  | x :: xs =>
    match pyIntoAny x with
    | some a =>
      let r := takeAnys xs
      (a :: r.1, r.2)
    | none => ([], x :: xs)

/-- One CRDT insertion operation issued by `insert_at`: either a multi-value
insertion of a batch of primitives (`dst.insert_range(txn, j, anys)`) or a
single-element insertion of a not-yet-converted Python value
(`dst.insert(txn, j, wrapper)`). -/
inductive ArrayOp where
  | insertRange (pos : Nat) (anys : List Any)
  | insertOne (pos : Nat) (x : PyValue)
deriving Repr

/-- Modelled from the spec: the effect of `yrs::Array::insert_range` (the yrs
block store is not under src/) on the logical element sequence — splice the
new values in at position `j`.  Callers establish `j ≤ dst.length`; yrs
aborts on an out-of-range index, which every claim below excludes by
hypothesis. -/
def listInsertAt (dst : List Value) (j : Nat) (vs : List Value) : List Value :=
  dst.take j ++ vs ++ dst.drop j

theorem takeAnys_sizeOf_le (l : List PyValue) : sizeOf (takeAnys l).2 ≤ sizeOf l := by
  induction l with
  | nil => simp [takeAnys]
  | cons x xs ih =>
    simp only [takeAnys]
    cases h : pyIntoAny x with
    | some a =>
      simp only
      calc sizeOf (takeAnys xs).2 ≤ sizeOf xs := ih
        _ ≤ sizeOf (x :: xs) := by simp
    | none => simp

theorem takeAnys_run_cons_sizeOf {x : PyValue} {xs : List PyValue} {a : Any}
    {as : List Any} {rest : List PyValue}
    (h : takeAnys (x :: xs) = (a :: as, rest)) : sizeOf rest < sizeOf (x :: xs) := by
  simp only [takeAnys] at h
  cases hx : pyIntoAny x with
  | some b =>
    rw [hx] at h
    simp only at h
    have h2 : rest = (takeAnys xs).2 := by
      have := congrArg Prod.snd h
      simpa using this.symm
    subst h2
    have := takeAnys_sizeOf_le xs
    simp only [List.cons.sizeOf_spec]
    omega
  | none =>
    rw [hx] at h
    simp at h

mutual

/-- Embedding of the outer `while` loop of `insert_at`
(src/y-py/src/lib.rs:1496): repeatedly take the maximal primitive run from the
remaining input; if it is nonempty, issue one `insert_range` at `j` and
advance `j` by its length; otherwise insert the single non-primitive value at
`j` (integrating it, see `storedOne`) and advance `j` by one.  Returns the
final backing content together with the trace of issued operations; a value
that can be neither converted nor integrated aborts (the source panics). -/
def insertAtCore (dst : List Value) (j : Nat) (src : List PyValue) :
    Except String (List Value × List ArrayOp) :=
  match hsrc : src with
  | [] => .ok (dst, [])
  | x :: xs =>
    match hta : takeAnys (x :: xs) with
    | (a :: as, rest) =>
      let anys := a :: as
      match insertAtCore (listInsertAt dst j (anys.map Value.any)) (j + anys.length) rest with
      | .ok (d, ops) => .ok (d, .insertRange j anys :: ops)
      | .error e => .error e
    | ([], _) =>
      match storedOne x with
      | .ok v =>
        match insertAtCore (listInsertAt dst j [v]) (j + 1) xs with
        | .ok (d, ops) => .ok (d, .insertOne j x :: ops)
        | .error e => .error e
      | .error e => .error e
termination_by sizeOf src
decreasing_by
  · exact hsrc ▸ takeAnys_run_cons_sizeOf hta
  · simp only [List.cons.sizeOf_spec]; omega
  · simp only [List.cons.sizeOf_spec]; omega

/-- The logical value stored in the backing array for one inserted element:
the chain `PyObjectWrapper::into_content` (src/y-py/src/lib.rs:1429) followed,
for preliminary shared handles, by `PyObjectWrapper::integrate`
(src/y-py/src/lib.rs:1454), which replays the buffered payload into the fresh
backing store (pushing the buffered string into the new Text; running the same
`insert_at` over the buffered items into the new, empty Array).  Already
integrated handles and unrecognized kinds abort with the source's panic
message. -/
def storedOne (x : PyValue) : Except String Value :=
  match x with
  | .sharedTextPrelim buf => .ok (.yText ([] ++ buf))
  | .sharedArrayPrelim items =>
    match insertAtCore [] 0 items with
    | .ok (c, _) => .ok (.yArray c)
    | .error e => .error e
  | .sharedTextIntegrated => .error "Cannot integrate this type"
  | .sharedArrayIntegrated => .error "Cannot integrate this type"
  | x1 =>
    match pyIntoAny x1 with
    | some a => .ok (.any a)
    | none => .error "Cannot integrate this type"
termination_by sizeOf x
decreasing_by
  simp

end

/-- The result of `Prelim::into_content`: either inlined `Any` payload
(`ItemContent::Any`) or a fresh branch for a nested shared type
(`ItemContent::Type`). -/
inductive ItemContent where
  | anyContent (anys : List Any)
  | typeContent (kind : Nat)
deriving Repr

/-- `TYPE_REFS_TEXT` / `TYPE_REFS_ARRAY` discriminants from `Shared::type_ref`
(src/y-py/src/lib.rs:1696). -/
def TYPE_REFS_ARRAY : Nat := 0
def TYPE_REFS_TEXT : Nat := 2

/-- `Shared::extract` (the `FromPyObject` derivation at
src/y-py/src/lib.rs:1644): succeeds exactly on `YText`/`YArray` pyclass
instances, reported together with their `prelim` flag and `type_ref`. -/
def sharedExtract : PyValue → Option (Bool × Nat)
  | .sharedTextPrelim _ => some (true, TYPE_REFS_TEXT)
  | .sharedTextIntegrated => some (false, TYPE_REFS_TEXT)
  | .sharedArrayPrelim _ => some (true, TYPE_REFS_ARRAY)
  | .sharedArrayIntegrated => some (false, TYPE_REFS_ARRAY)
  | _ => none

/-- Whether a Python value is a shared handle that is already integrated. -/
def isIntegratedShared (x : PyValue) : Bool :=
  match sharedExtract x with
  | some (p, _) => !p
  | none => false

/-- Embedding of `PyObjectWrapper::into_content` (src/y-py/src/lib.rs:1429):
primitives become `ItemContent::Any`; preliminary shared handles become a
fresh `ItemContent::Type` branch; already integrated handles and unrecognized
kinds hit the source's `panic!("Cannot integrate this type")`, modelled as an
error.  The function takes no document state (`_txn` is unused in the source),
so a failing call cannot mutate any store. -/
def intoContent (x : PyValue) : Except String ItemContent :=
  match pyIntoAny x with
  | some a => .ok (.anyContent [a])
  | none =>
    match sharedExtract x with
    | some (isPrelim, kind) =>
      if isPrelim then .ok (.typeContent kind)
      else .error "Cannot integrate this type"
    | none => .error "Cannot integrate this type"

/-- The two-state cell of a shared handle (`SharedType<T, P>` at
src/y-py/src/lib.rs:491), with the integrated backing content carried inline:
either an integrated Text/Array bound to the document store, or a preliminary
local payload. -/
inductive SharedCellState where
  | textIntegrated (backing : List Nat)
  | textPrelim (buf : List Nat)
  | arrayIntegrated (content : List Value)
  | arrayPrelim (items : List PyValue)
deriving Repr

/-- Embedding of `PyObjectWrapper::integrate` (src/y-py/src/lib.rs:1454): for
a preliminary handle, bind a fresh (empty) backing store to the target
position, swap the cell from `Prelim` to `Integrated`, and replay the buffered
payload into the new backing — `text.push(txn, buffered)` for Text,
`insert_at(array, txn, array.len(), items)` for Array (with `array.len() = 0`
on the fresh backing).  The `replace` returns the old cell value, so the
preliminary payload is taken out of the cell exactly once; for a
non-preliminary handle the guard `shared.is_prelim()` makes the call a no-op. -/
def wrapperIntegrate (cell : SharedCellState) : Except String SharedCellState :=
  match cell with
  | .textPrelim buf => .ok (.textIntegrated ([] ++ buf))
  | .arrayPrelim items =>
    match insertAtCore [] 0 items with
    | .ok (c, _) => .ok (.arrayIntegrated c)
    | .error e => .error e
  | c => .ok c

/-- The state of a `YArray` handle (src/y-py/src/lib.rs:632): integrated
backing content, or the preliminary `Vec<PyObject>` buffer. -/
inductive YArrayState where
  | integrated (content : List Value)
  | prelim (items : List PyValue)
deriving Repr

/-- `YArray::length` (src/y-py/src/lib.rs:669). -/
def yarrayLength : YArrayState → Nat
  | .integrated c => c.length
  | .prelim v => v.length

/-- Splice for the preliminary branch of `YArray::insert`
(src/y-py/src/lib.rs:694): `Vec::insert` at `j`, `j+1`, ... which requires
`j ≤ len` (`Vec::insert` aborts otherwise). -/
def prelimVecInsert (vec : List PyValue) (j : Nat) (items : List PyValue) :
    Except String (List PyValue) :=
  if j ≤ vec.length then .ok (vec.take j ++ items ++ vec.drop j)
  else .error "insertion index out of bounds"

/-- Embedding of `YArray::insert` (src/y-py/src/lib.rs:688): the integrated
branch runs `insert_at`, the preliminary branch splices into the local
buffer. -/
def yarrayInsert (a : YArrayState) (j : Nat) (items : List PyValue) :
    Except String YArrayState :=
  match a with
  | .integrated c =>
    match insertAtCore c j items with
    | .ok (d, _) => .ok (.integrated d)
    | .error e => .error e
  | .prelim v =>
    match prelimVecInsert v j items with
    | .ok v1 => .ok (.prelim v1)
    | .error e => .error e

/-- Embedding of `YArray::push` (src/y-py/src/lib.rs:704): insert at the
current length. -/
def yarrayPush (a : YArrayState) (items : List PyValue) : Except String YArrayState :=
  yarrayInsert a (yarrayLength a) items

/-- The value returned by `YArray::get`: the integrated branch converts a
stored `Value` through `ValueWrapper`, the preliminary branch clones the
stored Python object. -/
inductive GetResult where
  | fromIntegrated (v : Value)
  | fromPrelim (x : PyValue)
deriving Repr

/-- Embedding of `YArray::get` (src/y-py/src/lib.rs:721).  The integrated
branch is modelled from the spec for the part living in the yrs core:
`Array::get` returns `Some` element exactly when `index` is below the length.
Both branches raise `PyIndexError` with the source's message otherwise. -/
def yarrayGet (a : YArrayState) (index : Nat) : Except String GetResult :=
  match a with
  | .integrated c =>
    match c.get? index with
    | some v => .ok (.fromIntegrated v)
    | none => .error "Index outside the bounds of an YArray"
  | .prelim v =>
    match v.get? index with
    | some x => .ok (.fromPrelim x)
    | none => .error "Index outside the bounds of an YArray"

/-- The state of a `YText` handle (src/y-py/src/lib.rs:523): integrated
backing content or the preliminary `String` buffer, both as UTF-8 byte
lists. -/
inductive YTextState where
  | integrated (content : List Nat)
  | prelim (buf : List Nat)
deriving Repr

/-- `YText::length` (src/y-py/src/lib.rs:561): UTF-8 byte length on either
branch. -/
def ytextLength : YTextState → Nat
  | .integrated c => c.length
  | .prelim b => b.length

/-- The preliminary branch of `YText::delete` (src/y-py/src/lib.rs:607):
`String::drain(index..index+length)`, which aborts (Rust range panic) when the
upper bound exceeds the buffer length, and removes the range otherwise. -/
def prelimTextDrain (buf : List Nat) (index length : Nat) :
    Except String (List Nat) :=
  if index + length ≤ buf.length then
    .ok (buf.take index ++ buf.drop (index + length))
  else .error "byte index out of bounds"

/-- Modelled from the spec: `yrs::Text::remove_range` (the integrated branch
of `YText::delete`; the yrs core is not under src/).  Per the testable
property of the spec, deleting a range with `index + length` beyond the byte
length is rejected as an index-out-of-range failure, never silently
truncated. -/
def textRemoveRange (content : List Nat) (index length : Nat) :
    Except String (List Nat) :=
  if index + length ≤ content.length then
    .ok (content.take index ++ content.drop (index + length))
  else .error "index out of range"

/-- Embedding of `YText::delete` (src/y-py/src/lib.rs:603): dispatch on the
cell state; the untouched input state is kept on failure (the error aborts
before any mutation). -/
def ytextDelete (t : YTextState) (index length : Nat) : Except String YTextState :=
  match t with
  | .integrated c =>
    match textRemoveRange c index length with
    | .ok c1 => .ok (.integrated c1)
    | .error e => .error e
  | .prelim b =>
    match prelimTextDrain b index length with
    | .ok b1 => .ok (.prelim b1)
    | .error e => .error e

mutual

/-- Embedding of `AnyWrapper::into_py` (src/y-py/src/lib.rs:1575): the
conversion used when values are read back into Python (`YArray::get`,
`to_json`).  `Any::Buffer` is `unreachable!()` in the source, modelled as an
error. -/
def anyIntoPy : Any → Except String PyValue
  | .null => .ok .pyNone
  | .bool b => .ok (.pyBool b)
  | .number bits => .ok (.pyFloat bits)
  | .bigInt i => .ok (.pyLong i)
  | .string s => .ok (.pyString s)
  | .buffer _ => .error "unreachable"
  | .array xs =>
    match anyIntoPyList xs with
    | .ok r => .ok (.pyList r)
    | .error e => .error e
  | .map es =>
    match anyIntoPyDict es with
    | .ok r => .ok (.pyDict r)
    | .error e => .error e

/-- Elementwise readback of an `Any::Array`. -/
def anyIntoPyList : List Any → Except String (List PyValue)
  | [] => .ok []
  | a :: as_ =>
    match anyIntoPy a with
    | .ok x =>
      match anyIntoPyList as_ with
      | .ok r => .ok (x :: r)
      | .error e => .error e
    | .error e => .error e

/-- Entrywise readback of an `Any::Map`. -/
def anyIntoPyDict : List (String × Any) → Except String (List (String × PyValue))
  | [] => .ok []
  | (k, a) :: es =>
    match anyIntoPy a with
    | .ok x =>
      match anyIntoPyDict es with
      | .ok r => .ok ((k, x) :: r)
      | .error e => .error e
    | .error e => .error e

end

/-- Number of logical values an operation of `insert_at` inserts: a batch
counts its length, a shared-type insertion counts as one. -/
def opCount : ArrayOp → Nat
  | .insertRange _ anys => anys.length
  | .insertOne _ _ => 1

/-- The positions of an operation trace advance by the number of values
inserted so far: the first operation sits at `j`, each following one at the
previous position plus the previous operation's value count. -/
def opsChainedFrom (j : Nat) : List ArrayOp → Bool
  | [] => true
  | .insertRange p anys :: rest => p == j && opsChainedFrom (j + anys.length) rest
  | .insertOne p _ :: rest => p == j && opsChainedFrom (j + 1) rest

/-- Whether an operation is a multi-value batch. -/
def opIsRange : ArrayOp → Bool
  | .insertRange _ _ => true
  | .insertOne _ _ => false

/-- Structural batching discipline of `insert_at`: every batch is nonempty,
no two batches are adjacent (each accumulated run was maximal), and every
single-element operation carries a non-primitive value. -/
def opsBatched : List ArrayOp → Bool
  | [] => true
  | .insertRange _ anys :: rest =>
    !anys.isEmpty && (match rest with
      | o2 :: _ => !opIsRange o2
      | [] => true) && opsBatched rest
  | .insertOne _ x :: rest => (pyIntoAny x).isNone && opsBatched rest

/-- The logical values contributed by one operation of the trace, in order:
the batch payload as inlined primitives, or the integrated form of the single
non-primitive element. -/
def opStored : ArrayOp → Except String (List Value)
  | .insertRange _ anys => .ok (anys.map Value.any)
  | .insertOne _ x =>
    match storedOne x with
    | .ok v => .ok [v]
    | .error e => .error e

/-- Concatenated logical values of a whole operation trace. -/
def opsStored : List ArrayOp → Except String (List Value)
  | [] => .ok []
  | o :: os =>
    match opStored o with
    | .ok vs =>
      match opsStored os with
      | .ok rest => .ok (vs ++ rest)
      | .error e => .error e
    | .error e => .error e

/-- Elementwise `storedOne` over a list of inserted values: the logical
contents an insertion of that list produces, in order. -/
def storedList : List PyValue → Except String (List Value)
  | [] => .ok []
  | x :: xs =>
    match storedOne x with
    | .ok v =>
      match storedList xs with
      | .ok vs => .ok (v :: vs)
      | .error e => .error e
    | .error e => .error e

/-- One operation of an encoded update, tagged with its origin: the emitting
replica id (`client`), the sequence number (`clock`) used for duplicate
detection, and an opaque payload. -/
structure UOp where
  client : Nat
  clock : Nat
  payload : Nat
deriving Repr, DecidableEq

/-- Modelled from the spec: the document-level store the update protocol acts
on (the yrs block store is not under src/).  Per the spec, the document
retains the operations it has integrated; an operation is recognized as
already seen via its replica id plus sequence number. -/
structure DocStore where
  ops : List UOp
deriving Repr, DecidableEq

/-- Whether an operation from replica `c` with sequence number `k` has been
seen already. -/
def seenIn (s : List UOp) (c k : Nat) : Bool :=
  s.any (fun o => o.client == c && o.clock == k)

/-- Modelled from the spec: merging one decoded operation — a duplicate
(matching replica id and sequence number) is dropped, a new operation is
integrated. -/
def applyUOp (s : DocStore) (o : UOp) : DocStore :=
  if seenIn s.ops o.client o.clock then s else { ops := s.ops ++ [o] }

/-- Modelled from the spec: merging a decoded update — its operations are
merged in order. -/
def applyUpdateOps (s : DocStore) (u : List UOp) : DocStore :=
  u.foldl applyUOp s

/-- Modelled from the spec: lib0 v1 variable-length unsigned integer — low
seven bits per byte, high bit set on all but the last byte. -/
def decodeVarint : List Nat → Option (Nat × List Nat)
  | [] => none
  | b :: rest =>
    if b < 128 then some (b, rest)
    else
      match decodeVarint rest with
      | some (v, r) => some (b % 128 + 128 * v, r)
      | none => none

/-- Modelled from the spec: decode `n` consecutive operations, each encoded
as the varints client id, clock, payload. -/
def decodeOps : Nat → List Nat → Option (List UOp × List Nat)
  | 0, rest => some ([], rest)
  | n + 1, bytes =>
    match decodeVarint bytes with
    | some (c, r1) =>
      match decodeVarint r1 with
      | some (k, r2) =>
        match decodeVarint r2 with
        | some (d, r3) =>
          match decodeOps n r3 with
          | some (ops, r4) => some (⟨c, k, d⟩ :: ops, r4)
          | none => none
        | none => none
      | none => none
    | none => none

/-- Modelled from the spec: the v1 update decoder (`Update::decode` with
`DecoderV1`, not under src/) — an update is a varint operation count followed
by that many encoded operations, consuming the whole payload; anything else is
malformed. -/
def decodeUpdateV1 (bytes : List Nat) : Option (List UOp) :=
  match decodeVarint bytes with
  | some (n, r) =>
    match decodeOps n r with
    | some (ops, rest) => if rest.isEmpty then some ops else none
    | none => none
  | none => none

/-- Embedding of `YTransaction::apply_v1` (src/y-py/src/lib.rs:468): the whole
payload is decoded first (`Update::decode`), and only then merged
(`apply_update`); a decode failure aborts before any mutation, leaving the
store untouched. -/
def applyV1 (s : DocStore) (diff : List Nat) : Except String DocStore :=
  match decodeUpdateV1 diff with
  | some u => .ok (applyUpdateOps s u)
  | none => .error "malformed update payload"

/-- The document state visible to the binding: the replica id (`client_id`),
whether a transaction is currently open, and the open transaction's pending
(uncommitted) operations. -/
structure YDocState where
  clientId : Nat
  txnOpen : Bool
  pending : List UOp
deriving Repr, DecidableEq

/-- Modelled from the spec: `Doc::transact` (the yrs core behind
`YDoc::begin_transaction`, src/y-py/src/lib.rs:112, is not under src/).  Per
the spec, a document allows at most one active transaction: a second
`begin_transaction` while one is open fails immediately — it never queues —
regardless of the first transaction's pending mutations. -/
def beginTransaction (d : YDocState) : Except String YDocState :=
  if d.txnOpen then .error "transaction already open"
  else .ok { d with txnOpen := true }

/-- The value of the IEEE-754 double nearest to the natural number `n`
(round-half-to-even), as produced when a Python integer is extracted into the
`Option<f64>` parameter of `YDoc::new`. -/
def f64OfNat (n : Nat) : Nat := roundTo53 n

/-- The Rust `as u64` cast of a nonnegative integral double: saturating at the
`u64` upper bound. -/
def u64Sat (x : Nat) : Nat := min x (2 ^ 64 - 1)

/-- Embedding of `YDoc::new` (src/y-py/src/lib.rs:69): the `id` parameter is
an `Option<f64>`; when given, the caller's Python integer arrives rounded to
a double and is cast with `as u64` into `Doc::with_client_id`.  When absent,
`Doc::new` assigns a generated id (modelled from the spec: random generation,
with the entropy made an explicit argument). -/
def ydocNew (pyId : Option Nat) (entropy : Nat) : YDocState :=
  match pyId with
  | some n => { clientId := u64Sat (f64OfNat n), txnOpen := false, pending := [] }
  | none => { clientId := entropy % 2 ^ 64, txnOpen := false, pending := [] }

/-- Embedding of the `YDoc::id` getter (src/y-py/src/lib.rs:81):
`client_id as f64`. -/
def ydocIdGetter (d : YDocState) : Nat := f64OfNat d.clientId

/-! ## Helper lemmas -/

theorem seenIn_applyUOp_mono {s : DocStore} {o : UOp} {c k : Nat}
    (h : seenIn s.ops c k = true) : seenIn (applyUOp s o).ops c k = true := by
  unfold applyUOp
  split
  · exact h
  · unfold seenIn at h ⊢
    simp only [List.any_append, Bool.or_eq_true]
    exact Or.inl h

theorem seenIn_applyUOp_self (s : DocStore) (o : UOp) :
    seenIn (applyUOp s o).ops o.client o.clock = true := by
  unfold applyUOp
  split
  · assumption
  · unfold seenIn
    simp

theorem seenIn_applyUpdateOps_mono {s : DocStore} {c k : Nat} (u : List UOp)
    (h : seenIn s.ops c k = true) : seenIn (applyUpdateOps s u).ops c k = true := by
  induction u generalizing s with
  | nil => exact h
  | cons o os ih =>
    unfold applyUpdateOps at ih ⊢
    simp only [List.foldl_cons]
    exact ih (seenIn_applyUOp_mono h)

theorem seenIn_applyUpdateOps_mem {u : List UOp} {o : UOp} (s : DocStore)
    (h : o ∈ u) : seenIn (applyUpdateOps s u).ops o.client o.clock = true := by
  induction u generalizing s with
  | nil => cases h
  | cons p ps ih =>
    unfold applyUpdateOps
    simp only [List.foldl_cons]
    rcases List.mem_cons.mp h with h1 | h1
    · subst h1
      exact seenIn_applyUpdateOps_mono ps (seenIn_applyUOp_self s o)
    · exact ih (applyUOp s p) h1

theorem applyUpdateOps_of_all_seen {u : List UOp} {s : DocStore}
    (h : ∀ o ∈ u, seenIn s.ops o.client o.clock = true) : applyUpdateOps s u = s := by
  induction u with
  | nil => rfl
  | cons o os ih =>
    unfold applyUpdateOps
    simp only [List.foldl_cons]
    have ho : applyUOp s o = s := by
      unfold applyUOp
      rw [h o (List.mem_cons_self o os)]
      simp
    rw [ho]
    exact ih fun p hp => h p (List.mem_cons_of_mem o hp)

theorem applyUpdateOps_idem (s : DocStore) (u : List UOp) :
    applyUpdateOps (applyUpdateOps s u) u = applyUpdateOps s u :=
  applyUpdateOps_of_all_seen fun o ho => seenIn_applyUpdateOps_mem s ho

/-! ## Claims C4, C5, C6 -/

/-- C4: for every document with an already-open transaction, a second call to
`begin_transaction` fails immediately (rather than succeeding or queueing),
regardless of whether the first transaction has pending mutations: the
quantified state `d` carries arbitrary pending operations. -/
theorem doc_second_begin_transaction_fails (d : YDocState) (h : d.txnOpen = true) :
    beginTransaction d = .error "transaction already open" := by
  unfold beginTransaction
  rw [h]
  simp

theorem doc_second_begin_transaction_fails_witness :
    beginTransaction ⟨7, true, [⟨7, 0, 42⟩]⟩ = .error "transaction already open" ∧
    beginTransaction ⟨7, true, []⟩ = .error "transaction already open" :=
  ⟨doc_second_begin_transaction_fails ⟨7, true, [⟨7, 0, 42⟩]⟩ rfl,
   doc_second_begin_transaction_fails ⟨7, true, []⟩ rfl⟩

/-- C5: applying the same encoded update twice in succession leaves the
document identical to applying it once — the second application is a no-op,
because every operation of the update is then recognized by its replica id
plus sequence number and dropped.  Equality of the full store gives equality
of content and length. -/
theorem apply_update_idempotent (s : DocStore) (bytes : List Nat) (s1 : DocStore)
    (h : applyV1 s bytes = .ok s1) :
    applyV1 s1 bytes = .ok s1 := by
  unfold applyV1 at h ⊢
  cases hd : decodeUpdateV1 bytes with
  | none => rw [hd] at h; cases h
  | some u =>
    rw [hd] at h
    simp only [Except.ok.injEq] at h
    subst h
    simp only [Except.ok.injEq]
    exact applyUpdateOps_idem s u

theorem apply_update_idempotent_witness :
    applyV1 ⟨[⟨5, 0, 42⟩]⟩ [2, 5, 1, 9, 6, 0, 3] = .ok ⟨[⟨5, 0, 42⟩, ⟨5, 1, 9⟩, ⟨6, 0, 3⟩]⟩ ∧
    applyV1 ⟨[⟨5, 0, 42⟩, ⟨5, 1, 9⟩, ⟨6, 0, 3⟩]⟩ [2, 5, 1, 9, 6, 0, 3] =
      .ok ⟨[⟨5, 0, 42⟩, ⟨5, 1, 9⟩, ⟨6, 0, 3⟩]⟩ :=
  ⟨by rfl, apply_update_idempotent ⟨[⟨5, 0, 42⟩]⟩ [2, 5, 1, 9, 6, 0, 3] _ (by rfl)⟩

/-- C6: `apply_v1` decodes the whole payload before touching the store, so a
byte sequence that is not a well-formed v1 update is rejected with an error
and nothing is applied (the input store is left untouched), while a
well-formed payload is merged as a whole. -/
theorem apply_update_all_or_nothing (s : DocStore) (bytes : List Nat) :
    (decodeUpdateV1 bytes = none → applyV1 s bytes = .error "malformed update payload") ∧
    (∀ u, decodeUpdateV1 bytes = some u → applyV1 s bytes = .ok (applyUpdateOps s u)) := by
  constructor
  · intro h
    unfold applyV1
    rw [h]
  · intro u h
    unfold applyV1
    rw [h]

theorem apply_update_all_or_nothing_witness :
    applyV1 ⟨[⟨5, 0, 42⟩]⟩ [128] = .error "malformed update payload" ∧
    applyV1 ⟨[]⟩ [1, 5, 0, 42] = .ok ⟨[⟨5, 0, 42⟩]⟩ :=
  ⟨(apply_update_all_or_nothing ⟨[⟨5, 0, 42⟩]⟩ [128]).1 (by decide),
   by
    have := (apply_update_all_or_nothing ⟨[]⟩ [1, 5, 0, 42]).2 [⟨5, 0, 42⟩] (by rfl)
    rw [this]
    rfl⟩

/-! ## Helper lemmas for the mixed-insert algorithm -/

theorem storedOne_of_prim {x : PyValue} {a : Any} (h : pyIntoAny x = some a) :
    storedOne x = .ok (.any a) := by
  cases x <;>
    first
    | (simp only [storedOne.eq_def]; rw [h])
    | exact Option.noConfusion h

theorem storedList_cons_inv {x : PyValue} {xs : List PyValue} {vs : List Value}
    (h : storedList (x :: xs) = .ok vs) :
    ∃ v vs2, storedOne x = .ok v ∧ storedList xs = .ok vs2 ∧ vs = v :: vs2 := by
  simp only [storedList] at h
  cases hx : storedOne x with
  | ok v =>
    simp only [hx] at h
    cases hxs : storedList xs with
    | ok vs2 =>
      simp only [hxs] at h
      exact ⟨v, vs2, rfl, rfl, by injection h with h1; exact h1.symm⟩
    | error e =>
      simp only [hxs] at h
      exact Except.noConfusion h
  | error e =>
    simp only [hx] at h
    exact Except.noConfusion h

theorem takeAnys_cons_prim {x : PyValue} {xs : List PyValue} {a : Any}
    (h : pyIntoAny x = some a) :
    takeAnys (x :: xs) = (a :: (takeAnys xs).1, (takeAnys xs).2) := by
  simp only [takeAnys, h]

theorem takeAnys_cons_nonprim {x : PyValue} {xs : List PyValue}
    (h : pyIntoAny x = none) : takeAnys (x :: xs) = ([], x :: xs) := by
  simp only [takeAnys, h]

theorem takeAnys_rest_no_run : ∀ (l : List PyValue), (takeAnys ((takeAnys l).2)).1 = [] := by
  intro l
  induction l with
  | nil => rfl
  | cons x xs ih =>
    cases hx : pyIntoAny x with
    | some a => rw [takeAnys_cons_prim hx]; exact ih
    | none => rw [takeAnys_cons_nonprim hx, takeAnys_cons_nonprim hx]

theorem takeAnys_rest_length_le : ∀ (l : List PyValue), (takeAnys l).2.length ≤ l.length := by
  intro l
  induction l with
  | nil => simp [takeAnys]
  | cons y ys ih =>
    cases hy : pyIntoAny y with
    | some b =>
      rw [takeAnys_cons_prim hy]
      calc (takeAnys ys).2.length ≤ ys.length := ih
        _ ≤ (y :: ys).length := by simp
    | none => rw [takeAnys_cons_nonprim hy]

theorem takeAnys_run_length_lt {x : PyValue} {xs : List PyValue} {a : Any}
    {as : List Any} {rest : List PyValue} (h : takeAnys (x :: xs) = (a :: as, rest)) :
    rest.length < (x :: xs).length := by
  cases hx : pyIntoAny x with
  | some b =>
    rw [takeAnys_cons_prim hx] at h
    have h2 : rest = (takeAnys xs).2 := by
      have := congrArg Prod.snd h
      simpa using this.symm
    subst h2
    have := takeAnys_rest_length_le xs
    simp only [List.length_cons]
    omega
  | none =>
    rw [takeAnys_cons_nonprim hx] at h
    injection h with h1 h2
    cases h1

theorem storedList_split_of_takeAnys {l : List PyValue} :
    ∀ {run : List Any} {rest : List PyValue} {vs : List Value},
      takeAnys l = (run, rest) → storedList l = .ok vs →
      ∃ vs2, storedList rest = .ok vs2 ∧ vs = run.map Value.any ++ vs2 := by
  induction l with
  | nil =>
    intro run rest vs ht hs
    cases ht
    exact ⟨vs, hs, by simp⟩
  | cons x xs ih =>
    intro run rest vs ht hs
    cases hx : pyIntoAny x with
    | some a =>
      rw [takeAnys_cons_prim hx] at ht
      cases ht
      obtain ⟨v, vs2, hv, hvs2, hveq⟩ := storedList_cons_inv hs
      rw [storedOne_of_prim hx] at hv
      injection hv with hv1
      obtain ⟨vs3, h3, h4⟩ := ih rfl hvs2
      refine ⟨vs3, h3, ?_⟩
      subst hveq
      subst h4
      rw [← hv1]
      simp
    | none =>
      rw [takeAnys_cons_nonprim hx] at ht
      cases ht
      exact ⟨vs, hs, by simp⟩

theorem listInsertAt_nil_right (dst : List Value) (j : Nat) :
    listInsertAt dst j [] = dst := by
  simp [listInsertAt]

theorem listInsertAt_length {dst : List Value} {j : Nat} (vs : List Value)
    (h : j ≤ dst.length) :
    (listInsertAt dst j vs).length = dst.length + vs.length := by
  simp [listInsertAt]
  omega

theorem listInsertAt_compose {dst : List Value} {j : Nat} (b c : List Value)
    (h : j ≤ dst.length) :
    listInsertAt (listInsertAt dst j b) (j + b.length) c = listInsertAt dst j (b ++ c) := by
  unfold listInsertAt
  have htake : (dst.take j).length = j := by
    rw [List.length_take]
    omega
  have hlen : (dst.take j ++ b).length = j + b.length := by
    simp [htake]
  rw [show dst.take j ++ b ++ dst.drop j = (dst.take j ++ b) ++ dst.drop j by
    simp [List.append_assoc]]
  rw [List.take_left' hlen, List.drop_left' hlen]
  simp [List.append_assoc]

theorem insertAtCore_nil (dst : List Value) (j : Nat) :
    insertAtCore dst j [] = .ok (dst, []) := by
  simp only [insertAtCore.eq_def]

theorem insertAtCore_cons_batch {dst : List Value} {j : Nat} {x : PyValue}
    {xs : List PyValue} {a : Any} {as : List Any} {rest : List PyValue}
    (h : takeAnys (x :: xs) = (a :: as, rest)) :
    insertAtCore dst j (x :: xs) =
      match insertAtCore (listInsertAt dst j ((a :: as).map Value.any))
          (j + (a :: as).length) rest with
      | .ok (d, ops) => .ok (d, .insertRange j (a :: as) :: ops)
      | .error e => .error e := by
  rw [insertAtCore.eq_def]
  dsimp only
  split
  · next a2 as2 rest2 hta2 =>
    rw [h] at hta2
    injection hta2 with h1 h2
    injection h1 with h3 h4
    subst h3; subst h4; subst h2
    rfl
  · next snd hta2 =>
    rw [h] at hta2
    injection hta2 with h1 h2
    cases h1

theorem insertAtCore_cons_single {dst : List Value} {j : Nat} {x : PyValue}
    {xs : List PyValue} (h : pyIntoAny x = none) :
    insertAtCore dst j (x :: xs) =
      match storedOne x with
      | .ok v =>
        match insertAtCore (listInsertAt dst j [v]) (j + 1) xs with
        | .ok (d, ops) => .ok (d, .insertOne j x :: ops)
        | .error e => .error e
      | .error e => .error e := by
  rw [insertAtCore.eq_def]
  dsimp only
  split
  · next a2 as2 rest2 hta2 =>
    rw [takeAnys_cons_nonprim h] at hta2
    injection hta2 with h1 h2
    cases h1
  · next snd hta2 =>
    rfl

/-- The central specification of `insert_at`: on a valid index and a list
whose elements all convert or integrate, the call succeeds, the resulting
content is the original content with the converted values spliced in at the
index, and the operation trace is position-chained, maximally batched, and
reproduces exactly the converted values. -/
theorem insertAtCore_spec :
    ∀ (n : Nat) (src : List PyValue), src.length ≤ n →
    ∀ (dst : List Value) (j : Nat) (vs : List Value), j ≤ dst.length →
      storedList src = .ok vs →
      ∃ ops, insertAtCore dst j src = .ok (listInsertAt dst j vs, ops) ∧
        opsChainedFrom j ops = true ∧
        opsBatched ops = true ∧
        opsStored ops = .ok vs ∧
        ((takeAnys src).1 = [] →
          (match ops with
           | [] => True
           | o :: _ => opIsRange o = false)) := by
  intro n
  induction n with
  | zero =>
    intro src hlen dst j vs hj hvs
    have hsrc : src = [] := List.length_eq_zero.mp (Nat.le_zero.mp hlen)
    subst hsrc
    have hvs2 : vs = [] := by
      simp only [storedList] at hvs
      injection hvs with h1
      exact h1.symm
    subst hvs2
    exact ⟨[], by rw [insertAtCore_nil, listInsertAt_nil_right], rfl, rfl, rfl,
      fun _ => trivial⟩
  | succ n ih =>
    intro src hlen dst j vs hj hvs
    cases src with
    | nil =>
      have hvs2 : vs = [] := by
        simp only [storedList] at hvs
        injection hvs with h1
        exact h1.symm
      subst hvs2
      exact ⟨[], by rw [insertAtCore_nil, listInsertAt_nil_right], rfl, rfl, rfl,
        fun _ => trivial⟩
    | cons x xs =>
      cases hta : takeAnys (x :: xs) with
      | mk run rest =>
        cases run with
        | cons a as =>
          obtain ⟨vs2, hvs2, hveq⟩ := storedList_split_of_takeAnys hta hvs
          have hrest : rest.length ≤ n := by
            have := takeAnys_run_length_lt hta
            simp only [List.length_cons] at this hlen
            omega
          have hj1 : j + (a :: as).length ≤
              (listInsertAt dst j ((a :: as).map Value.any)).length := by
            rw [listInsertAt_length _ hj]
            simp
            omega
          obtain ⟨ops2, hrec, hchain2, hbatch2, hstored2, hhead2⟩ :=
            ih rest hrest (listInsertAt dst j ((a :: as).map Value.any))
              (j + (a :: as).length) vs2 hj1 hvs2
          have hcomp : listInsertAt (listInsertAt dst j ((a :: as).map Value.any))
              (j + (a :: as).length) vs2 = listInsertAt dst j vs := by
            have := listInsertAt_compose ((a :: as).map Value.any) vs2 hj
            simp only [List.length_map] at this
            rw [show (j + (a :: as).length) =
              (j + ((a :: as).map Value.any).length) by simp]
            rw [listInsertAt_compose ((a :: as).map Value.any) vs2 hj, hveq]
          refine ⟨.insertRange j (a :: as) :: ops2, ?_, ?_, ?_, ?_, ?_⟩
          · rw [insertAtCore_cons_batch hta, hrec, hcomp]
          · simp only [opsChainedFrom, beq_self_eq_true, Bool.true_and]
            exact hchain2
          · simp only [opsBatched, List.isEmpty_cons, Bool.not_false, Bool.true_and]
            have hnr : (takeAnys rest).1 = [] := by
              have := takeAnys_rest_no_run (x :: xs)
              rw [hta] at this
              exact this
            have hh := hhead2 hnr
            cases ops2 with
            | nil => simp [opsBatched]
            | cons o2 os2 =>
              simp only at hh
              simp only [hh, Bool.not_false, Bool.true_and]
              exact hbatch2
          · simp only [opsStored, opStored, hstored2, hveq]
          · simp [hta]
        | nil =>
          have hx : pyIntoAny x = none := by
            cases hx2 : pyIntoAny x with
            | some b =>
              rw [takeAnys_cons_prim hx2] at hta
              injection hta with h1 h2
              cases h1
            | none => rfl
          have hrest2 : rest = x :: xs := by
            rw [takeAnys_cons_nonprim hx] at hta
            injection hta with h1 h2
            exact h2.symm
          obtain ⟨v, vs2, hv, hvs2, hveq⟩ := storedList_cons_inv hvs
          have hxs : xs.length ≤ n := by
            simp only [List.length_cons] at hlen
            omega
          have hj1 : j + 1 ≤ (listInsertAt dst j [v]).length := by
            rw [listInsertAt_length _ hj]
            simp
            omega
          obtain ⟨ops2, hrec, hchain2, hbatch2, hstored2, hhead2⟩ :=
            ih xs hxs (listInsertAt dst j [v]) (j + 1) vs2 hj1 hvs2
          have hcomp : listInsertAt (listInsertAt dst j [v]) (j + 1) vs2 =
              listInsertAt dst j vs := by
            have h1 := listInsertAt_compose [v] vs2 hj
            simp only [List.length_cons, List.length_nil, Nat.zero_add] at h1
            rw [h1, hveq]
            rfl
          refine ⟨.insertOne j x :: ops2, ?_, ?_, ?_, ?_, ?_⟩
          · rw [insertAtCore_cons_single hx]
            simp only [hv, hrec, hcomp]
          · simp only [opsChainedFrom, beq_self_eq_true, Bool.true_and]
            exact hchain2
          · simp only [opsBatched, hx, Option.isNone_none, Bool.true_and]
            exact hbatch2
          · simp only [opsStored, opStored, hv, hstored2, hveq]
            rfl
          · intro _
            simp [opIsRange]

/-! ## Claims C1, C2, C3 -/

/-- C1: inserting a list of mixed values into an integrated Array at a valid
index scans the input left-to-right, inserting each maximal run of consecutive
primitive (JSON-convertible) values as one multi-value operation and each
shared-type handle as its own single-element operation (`opsBatched`), with
the insertion position advancing by the number of values inserted so far, a
shared-type insertion counting as one (`opsChainedFrom`); afterwards the array
contains the (converted) input values in order at the given index. -/
theorem array_mixed_insert_spec (c : List Value) (j : Nat) (src : List PyValue)
    (vs : List Value) (hj : j ≤ c.length) (hvs : storedList src = .ok vs) :
    ∃ ops, insertAtCore c j src = .ok (c.take j ++ vs ++ c.drop j, ops) ∧
      yarrayInsert (.integrated c) j src =
        .ok (.integrated (c.take j ++ vs ++ c.drop j)) ∧
      opsChainedFrom j ops = true ∧
      opsBatched ops = true ∧
      opsStored ops = .ok vs := by
  obtain ⟨ops, h1, h2, h3, h4, _⟩ :=
    insertAtCore_spec src.length src le_rfl c j vs hj hvs
  have h1e : insertAtCore c j src = .ok (c.take j ++ vs ++ c.drop j, ops) := h1
  refine ⟨ops, h1e, ?_, h2, h3, h4⟩
  simp only [yarrayInsert, h1e]

set_option maxRecDepth 10000 in
theorem array_mixed_insert_spec_witness :
    ∃ ops, insertAtCore [Value.any (.bigInt 9)] 1
        [.pyString "a", .pyLong 2, .sharedTextPrelim [104],
         .sharedArrayPrelim [.pyBool true], .pyFloat 7] =
      .ok ([Value.any (.bigInt 9)].take 1 ++
        [Value.any (.string "a"), Value.any (.bigInt 2), Value.yText [104],
         Value.yArray [Value.any (.bigInt 1)], Value.any (.number 7)] ++
        [Value.any (.bigInt 9)].drop 1, ops) ∧
      yarrayInsert (.integrated [Value.any (.bigInt 9)]) 1
        [.pyString "a", .pyLong 2, .sharedTextPrelim [104],
         .sharedArrayPrelim [.pyBool true], .pyFloat 7] =
      .ok (.integrated ([Value.any (.bigInt 9)].take 1 ++
        [Value.any (.string "a"), Value.any (.bigInt 2), Value.yText [104],
         Value.yArray [Value.any (.bigInt 1)], Value.any (.number 7)] ++
        [Value.any (.bigInt 9)].drop 1)) ∧
      opsChainedFrom 1 ops = true ∧
      opsBatched ops = true ∧
      opsStored ops = .ok [Value.any (.string "a"), Value.any (.bigInt 2),
        Value.yText [104], Value.yArray [Value.any (.bigInt 1)],
        Value.any (.number 7)] :=
  array_mixed_insert_spec [Value.any (.bigInt 9)] 1
    [.pyString "a", .pyLong 2, .sharedTextPrelim [104],
     .sharedArrayPrelim [.pyBool true], .pyFloat 7]
    [Value.any (.string "a"), Value.any (.bigInt 2), Value.yText [104],
     Value.yArray [Value.any (.bigInt 1)], Value.any (.number 7)]
    (by decide)
    (by
      have e1 : insertAtCore [] 0 [PyValue.pyBool true] =
          .ok ([Value.any (.bigInt 1)], [.insertRange 0 [.bigInt 1]]) := by
        rw [insertAtCore_cons_batch
          (show takeAnys [PyValue.pyBool true] = ([Any.bigInt 1], []) from rfl)]
        rw [insertAtCore_nil]
        rfl
      simp only [storedList, storedOne.eq_def, e1]
      rfl)

/-- C2: nesting a preliminary Text or Array handle into an integrated Array
replaces the handle's cell from `Prelim(local_value)` to `Integrated` bound to
a fresh backing store, then replays the buffered local content into it — the
buffered string is pushed into the new Text, the buffered elements are
batch-inserted into the new Array by the same mixed-insert algorithm
(`insertAtCore`) — and the preliminary payload is consumed exactly once: the
new cell is `Integrated`, and a repeated integrate call on it performs no
further replay, leaving the cell unchanged. -/
theorem prelim_integration_replay (buf : List Nat) (items : List PyValue)
    (vs : List Value) (hvs : storedList items = .ok vs) :
    wrapperIntegrate (.textPrelim buf) = .ok (.textIntegrated buf) ∧
    wrapperIntegrate (.arrayPrelim items) = .ok (.arrayIntegrated vs) ∧
    (∀ b, wrapperIntegrate (.textIntegrated b) = .ok (.textIntegrated b)) ∧
    (∀ cs, wrapperIntegrate (.arrayIntegrated cs) = .ok (.arrayIntegrated cs)) := by
  refine ⟨by simp [wrapperIntegrate], ?_, fun b => rfl, fun cs => rfl⟩
  obtain ⟨ops, h1, _, _, _, _⟩ :=
    insertAtCore_spec items.length items le_rfl [] 0 vs (by simp) hvs
  have h1e : insertAtCore [] 0 items = .ok (vs, ops) := by
    rw [h1]
    simp [listInsertAt]
  simp only [wrapperIntegrate, h1e]

set_option maxRecDepth 10000 in
theorem prelim_integration_replay_witness :
    wrapperIntegrate (.textPrelim [104, 105]) = .ok (.textIntegrated [104, 105]) ∧
    wrapperIntegrate (.arrayPrelim [.pyLong 3, .sharedTextPrelim [33]]) =
      .ok (.arrayIntegrated [Value.any (.bigInt 3), Value.yText [33]]) ∧
    (∀ b, wrapperIntegrate (.textIntegrated b) = .ok (.textIntegrated b)) ∧
    (∀ cs, wrapperIntegrate (.arrayIntegrated cs) = .ok (.arrayIntegrated cs)) :=
  prelim_integration_replay [104, 105] [.pyLong 3, .sharedTextPrelim [33]]
    [Value.any (.bigInt 3), Value.yText [33]]
    (by
      simp only [storedList, storedOne.eq_def]
      rfl)

/-- C3: nesting an already-integrated shared handle into an integrated Array
is the fatal "Cannot integrate this type" error of the source: `into_content`
fails before any content is produced (in the source it does not touch the
transaction at all), and the insert or push of that handle returns the error
without producing any mutated state, so the array's committed content is left
intact. -/
theorem nest_integrated_fails (x : PyValue) (hx : isIntegratedShared x = true) :
    intoContent x = .error "Cannot integrate this type" ∧
    (∀ (c : List Value) (j : Nat),
      yarrayInsert (.integrated c) j [x] = .error "Cannot integrate this type") ∧
    (∀ c : List Value,
      yarrayPush (.integrated c) [x] = .error "Cannot integrate this type") := by
  have main : ∀ (c : List Value) (j : Nat),
      yarrayInsert (.integrated c) j [x] = .error "Cannot integrate this type" := by
    intro c j
    cases x with
    | sharedTextIntegrated =>
      have hone : insertAtCore c j [.sharedTextIntegrated] =
          .error "Cannot integrate this type" := by
        rw [insertAtCore_cons_single
          (show pyIntoAny PyValue.sharedTextIntegrated = none from rfl)]
        simp only [storedOne.eq_def]
      simp only [yarrayInsert, hone]
    | sharedArrayIntegrated =>
      have hone : insertAtCore c j [.sharedArrayIntegrated] =
          .error "Cannot integrate this type" := by
        rw [insertAtCore_cons_single
          (show pyIntoAny PyValue.sharedArrayIntegrated = none from rfl)]
        simp only [storedOne.eq_def]
      simp only [yarrayInsert, hone]
    | pyNone => exact Bool.noConfusion hx
    | pyString s => exact Bool.noConfusion hx
    | pyLong n => exact Bool.noConfusion hx
    | pyFloat bits => exact Bool.noConfusion hx
    | pyBool b => exact Bool.noConfusion hx
    | pyList xs => exact Bool.noConfusion hx
    | pyDict es => exact Bool.noConfusion hx
    | sharedTextPrelim buf => exact Bool.noConfusion hx
    | sharedArrayPrelim items => exact Bool.noConfusion hx
  refine ⟨?_, main, fun c => main c (yarrayLength (.integrated c))⟩
  cases x with
  | sharedTextIntegrated => rfl
  | sharedArrayIntegrated => rfl
  | pyNone => exact Bool.noConfusion hx
  | pyString s => exact Bool.noConfusion hx
  | pyLong n => exact Bool.noConfusion hx
  | pyFloat bits => exact Bool.noConfusion hx
  | pyBool b => exact Bool.noConfusion hx
  | pyList xs => exact Bool.noConfusion hx
  | pyDict es => exact Bool.noConfusion hx
  | sharedTextPrelim buf => exact Bool.noConfusion hx
  | sharedArrayPrelim items => exact Bool.noConfusion hx

theorem nest_integrated_fails_witness :
    intoContent .sharedTextIntegrated = .error "Cannot integrate this type" ∧
    yarrayInsert (.integrated [Value.any (.bigInt 5)]) 0 [.sharedTextIntegrated] =
      .error "Cannot integrate this type" ∧
    yarrayPush (.integrated [Value.any (.bigInt 5)]) [.sharedArrayIntegrated] =
      .error "Cannot integrate this type" :=
  ⟨(nest_integrated_fails .sharedTextIntegrated rfl).1,
   (nest_integrated_fails .sharedTextIntegrated rfl).2.1 [Value.any (.bigInt 5)] 0,
   (nest_integrated_fails .sharedArrayIntegrated rfl).2.2 [Value.any (.bigInt 5)]⟩

/-! ## Claims C7, C8 -/

/-- C7: deleting a range whose end lies beyond the byte length of a Text is
rejected with an index-out-of-range failure on both backing forms; the error
result carries no new state, so the text content is unchanged, and a deletion
is never silently truncated — a successful delete never arises from an
out-of-range call. -/
theorem text_delete_out_of_range (t : YTextState) (index length : Nat)
    (h : ytextLength t < index + length) :
    (∃ msg, ytextDelete t index length = .error msg) ∧
    (∀ t1, ytextDelete t index length ≠ .ok t1) := by
  have herr : ∃ msg, ytextDelete t index length = .error msg := by
    cases t with
    | integrated c =>
      refine ⟨"index out of range", ?_⟩
      simp only [ytextLength] at h
      simp only [ytextDelete, textRemoveRange, if_neg (by omega : ¬ index + length ≤ c.length)]
    | prelim b =>
      refine ⟨"byte index out of bounds", ?_⟩
      simp only [ytextLength] at h
      simp only [ytextDelete, prelimTextDrain, if_neg (by omega : ¬ index + length ≤ b.length)]
  obtain ⟨msg, hmsg⟩ := herr
  exact ⟨⟨msg, hmsg⟩, fun t1 hok => by rw [hmsg] at hok; exact Except.noConfusion hok⟩

theorem text_delete_out_of_range_witness :
    (∃ msg, ytextDelete (.integrated [104, 105, 106]) 2 2 = .error msg) ∧
    (∀ t1, ytextDelete (.integrated [104, 105, 106]) 2 2 ≠ .ok t1) ∧
    (∃ msg, ytextDelete (.prelim [104, 105]) 0 3 = .error msg) :=
  ⟨(text_delete_out_of_range (.integrated [104, 105, 106]) 2 2 (by decide)).1,
   (text_delete_out_of_range (.integrated [104, 105, 106]) 2 2 (by decide)).2,
   (text_delete_out_of_range (.prelim [104, 105]) 0 3 (by decide)).1⟩

/-- C8: `get` on either backing form of a YArray returns the logical value
stored at the position exactly when the index is below the length, and raises
the index-out-of-bounds error exactly when the index is at least the
length. -/
theorem array_get_bounds (a : YArrayState) (index : Nat) :
    ((∃ r, yarrayGet a index = .ok r) ↔ index < yarrayLength a) ∧
    (yarrayLength a ≤ index →
      yarrayGet a index = .error "Index outside the bounds of an YArray") ∧
    (∀ c v, a = .integrated c → c.get? index = some v →
      yarrayGet a index = .ok (.fromIntegrated v)) ∧
    (∀ xs x, a = .prelim xs → xs.get? index = some x →
      yarrayGet a index = .ok (.fromPrelim x)) := by
  refine ⟨?_, ?_, ?_, ?_⟩
  · constructor
    · rintro ⟨r, hr⟩
      cases a with
      | integrated c =>
        simp only [yarrayGet] at hr
        cases hg : c.get? index with
        | some v =>
          simp only [yarrayLength]
          obtain ⟨hlt, _⟩ := List.get?_eq_some.mp hg
          exact hlt
        | none =>
          simp only [hg] at hr
          exact Except.noConfusion hr
      | prelim xs =>
        simp only [yarrayGet] at hr
        cases hg : xs.get? index with
        | some v =>
          simp only [yarrayLength]
          obtain ⟨hlt, _⟩ := List.get?_eq_some.mp hg
          exact hlt
        | none =>
          simp only [hg] at hr
          exact Except.noConfusion hr
    · intro hlt
      cases a with
      | integrated c =>
        simp only [yarrayLength] at hlt
        exact ⟨.fromIntegrated (c.get ⟨index, hlt⟩), by
          simp only [yarrayGet, List.get?_eq_get hlt]⟩
      | prelim xs =>
        simp only [yarrayLength] at hlt
        exact ⟨.fromPrelim (xs.get ⟨index, hlt⟩), by
          simp only [yarrayGet, List.get?_eq_get hlt]⟩
  · intro hge
    cases a with
    | integrated c =>
      simp only [yarrayLength] at hge
      simp only [yarrayGet, List.get?_eq_none.mpr hge]
    | prelim xs =>
      simp only [yarrayLength] at hge
      simp only [yarrayGet, List.get?_eq_none.mpr hge]
  · intro c v ha hg
    subst ha
    simp only [yarrayGet, hg]
  · intro xs x ha hg
    subst ha
    simp only [yarrayGet, hg]

theorem array_get_bounds_witness :
    yarrayGet (.integrated [Value.any (.bigInt 3), Value.yText [104]]) 1 =
      .ok (.fromIntegrated (Value.yText [104])) ∧
    yarrayGet (.integrated [Value.any (.bigInt 3), Value.yText [104]]) 2 =
      .error "Index outside the bounds of an YArray" ∧
    yarrayGet (.prelim [PyValue.pyNone]) 0 = .ok (.fromPrelim PyValue.pyNone) ∧
    yarrayGet (.prelim [PyValue.pyNone]) 1 =
      .error "Index outside the bounds of an YArray" :=
  ⟨(array_get_bounds (.integrated [Value.any (.bigInt 3), Value.yText [104]]) 1).2.2.1
      [Value.any (.bigInt 3), Value.yText [104]] (Value.yText [104]) rfl rfl,
   (array_get_bounds (.integrated [Value.any (.bigInt 3), Value.yText [104]]) 2).2.1
      (by decide),
   (array_get_bounds (.prelim [PyValue.pyNone]) 0).2.2.2 [PyValue.pyNone] PyValue.pyNone
      rfl rfl,
   (array_get_bounds (.prelim [PyValue.pyNone]) 1).2.1 (by decide)⟩

/-! ## Claims C9, C10 -/

theorem roundTo53_of_le {n : Nat} (h : n ≤ 2 ^ 53) : roundTo53 n = n := by
  simp only [roundTo53, if_pos h]

theorem roundTo53_pow53_succ : roundTo53 (2 ^ 53 + 1) = 2 ^ 53 := by
  have hlog : Nat.log2 (2 ^ 53 + 1) = 53 := by
    rw [Nat.log2_eq_log_two]
    rw [Nat.log_eq_of_pow_le_of_lt_pow] <;> norm_num
  rw [roundTo53, if_neg (by norm_num)]
  simp only [hlog]
  norm_num

/-- C9 counterexample: the 64-bit replica id `2 ^ 53 + 1` is not reused
verbatim — the id travels through the `Option<f64>` parameter of `YDoc::new`,
where it is rounded to the nearest double, and the resulting `client_id` is
`2 ^ 53`. -/
theorem doc_id_not_verbatim :
    (ydocNew (some (2 ^ 53 + 1)) 0).clientId ≠ 2 ^ 53 + 1 := by
  have : (ydocNew (some (2 ^ 53 + 1)) 0).clientId = 2 ^ 53 := by
    simp only [ydocNew, f64OfNat, roundTo53_pow53_succ, u64Sat]
    norm_num
  rw [this]
  norm_num

/-- C9 (amended): a caller-supplied replica id that is exactly representable
as an IEEE-754 double — in particular every id up to `2 ^ 53` — is reused
verbatim as the document's `client_id`, and the id getter reports that same
value; when no id is supplied, the generated value (explicit entropy argument)
is used instead. -/
theorem doc_id_reused_when_representable (n e : Nat) (hrep : f64OfNat n = n)
    (hn : n < 2 ^ 64) :
    (ydocNew (some n) e).clientId = n ∧
    ydocIdGetter (ydocNew (some n) e) = n ∧
    (ydocNew none e).clientId = e % 2 ^ 64 := by
  have h1 : (ydocNew (some n) e).clientId = n := by
    simp only [ydocNew, hrep, u64Sat]
    omega
  refine ⟨h1, ?_, rfl⟩
  simp only [ydocIdGetter, h1, hrep]

theorem doc_id_reused_when_representable_witness :
    (ydocNew (some 5) 3).clientId = 5 ∧
    ydocIdGetter (ydocNew (some 5) 3) = 5 ∧
    (ydocNew none 3).clientId = 3 % 2 ^ 64 :=
  doc_id_reused_when_representable 5 3 (by decide) (by decide)

theorem pyIntoAny_pyLong (n : Int) : pyIntoAny (.pyLong n) = pyLongToAny n := rfl

/-- C10: a Python integer inserted as a primitive is stored as the 64-bit
BigInt obtained by first extracting the integer as a double (rounding to 53
significant bits) and then truncating to `i64`; reading the stored value back
returns exactly that integer, and for the input `2 ^ 53 + 1` — of magnitude
greater than `2 ^ 53` — the value read back (`2 ^ 53`) differs from the value
inserted. -/
theorem int_insert_via_double (n : Int) (x : Int) (hx : pyLongAsF64 n = some x) :
    pyIntoAny (.pyLong n) = some (.bigInt (i64Sat x)) ∧
    storedOne (.pyLong n) = .ok (.any (.bigInt (i64Sat x))) ∧
    anyIntoPy (.bigInt (i64Sat x)) = .ok (.pyLong (i64Sat x)) ∧
    pyIntoAny (.pyLong ((2 : Int) ^ 53 + 1)) = some (.bigInt ((2 : Int) ^ 53)) ∧
    anyIntoPy (.bigInt ((2 : Int) ^ 53)) = .ok (.pyLong ((2 : Int) ^ 53)) ∧
    ((2 : Int) ^ 53 ≠ (2 : Int) ^ 53 + 1) := by
  have hgen : ∀ (m y : Int), pyLongAsF64 m = some y →
      pyIntoAny (.pyLong m) = some (.bigInt (i64Sat y)) := by
    intro m y hy
    rw [pyIntoAny_pyLong]
    simp only [pyLongToAny, hy]
  have h1 : pyIntoAny (.pyLong n) = some (.bigInt (i64Sat x)) := hgen n x hx
  have hbig : pyLongAsF64 ((2 : Int) ^ 53 + 1) = some ((2 : Int) ^ 53) := by
    have habs : ((2 : Int) ^ 53 + 1).natAbs = 2 ^ 53 + 1 := by norm_num
    simp only [pyLongAsF64, habs, roundTo53_pow53_succ]
    rw [if_pos (by norm_num)]
    norm_num
  have hsat : i64Sat ((2 : Int) ^ 53) = (2 : Int) ^ 53 := by
    simp only [i64Sat]
    rw [min_eq_right (by norm_num), max_eq_right (by norm_num)]
  have h4 : pyIntoAny (.pyLong ((2 : Int) ^ 53 + 1)) = some (.bigInt ((2 : Int) ^ 53)) := by
    have h := hgen ((2 : Int) ^ 53 + 1) ((2 : Int) ^ 53) hbig
    rw [hsat] at h
    exact h
  exact ⟨h1, storedOne_of_prim h1, rfl, h4, rfl, by norm_num⟩

set_option maxRecDepth 10000 in
theorem int_insert_via_double_witness :
    pyIntoAny (.pyLong 7) = some (.bigInt (i64Sat 7)) ∧
    storedOne (.pyLong 7) = .ok (.any (.bigInt (i64Sat 7))) ∧
    anyIntoPy (.bigInt (i64Sat 7)) = .ok (.pyLong (i64Sat 7)) ∧
    pyIntoAny (.pyLong ((2 : Int) ^ 53 + 1)) = some (.bigInt ((2 : Int) ^ 53)) ∧
    anyIntoPy (.bigInt ((2 : Int) ^ 53)) = .ok (.pyLong ((2 : Int) ^ 53)) ∧
    ((2 : Int) ^ 53 ≠ (2 : Int) ^ 53 + 1) :=
  int_insert_via_double 7 7 (by decide)

end YPy
